import Mathlib

/-!
Verification of the semantic code-search core of this repository: a shallow
embedding of the code chunker (`crates/code-parsers/src/lib.rs`,
`crates/semantic_index/src/chunking_v2.rs`), the Qdrant vector-store client
(`crates/semantic_index/src/vector_store/qdrant.rs`), the GPU embedding
pooling (`crates/semantic_index/src/embedding/gpu.rs`) and the semantic
search tool (`crates/assistant_tools/src/semantic_search_tool.rs`).

Source text is modelled at the byte level as `List Nat` (one entry per byte),
so that the byte-offset arithmetic of the Rust code is reproduced exactly.
Fallible Rust functions returning `anyhow::Result` are modelled as
`Except String`.
-/

namespace ZedSemantic

/-- ASCII byte sequence of a Lean string; used to build concrete inputs. -/
def asciiBytes (s : String) : List Nat := s.toList.map Char.toNat

/-- Number of newline (LF, byte 10) bytes in a byte sequence. -/
def countNl (l : List Nat) : Nat := l.count 10

/-- `sliceB t a b` models the Rust byte slice `t[a..b]` (take `b`, drop `a`),
ignoring UTF-8 boundary panics (those are modelled by `sliceChecked`). -/
def sliceB (t : List Nat) (a b : Nat) : List Nat := (t.take b).drop a

/-- Split a byte sequence at every LF byte, keeping all (possibly empty)
segments; `n` newlines yield `n + 1` segments. Auxiliary for `rustLines`. -/
def splitNl : List Nat → List (List Nat)
  | [] => [[]]
  | b :: rest =>
    if b = 10 then [] :: splitNl rest
    else
      match splitNl rest with
      | [] => [[b]]
      | s :: ss => (b :: s) :: ss

/-- Strip one trailing CR (byte 13) from a segment, as Rust `str::lines` does
for a `\r` immediately preceding the splitting `\n`. -/
def stripCr (l : List Nat) : List Nat :=
  if l.getLast? = some 13 then l.dropLast else l

/-- Model of Rust `str::lines`: split at `\n`, strip a `\r` that immediately
precedes each `\n`, and do not produce a final empty line when the text ends
with a line terminator. The final segment, when the text does not end in
`\n`, is kept verbatim (a lone trailing `\r` is not stripped). -/
def rustLines (l : List Nat) : List (List Nat) :=
  if l = [] then []
  else
    match (splitNl l).getLast? with
    | some [] => (splitNl l).dropLast.map stripCr
    | some last => (splitNl l).dropLast.map stripCr ++ [last]
    | none => []

/-! ## UTF-8 byte boundaries (Rust `str` slicing) -/

/-- A UTF-8 continuation byte (`0x80 ≤ b < 0xC0`). -/
def isContinuation (b : Nat) : Bool := 128 ≤ b && b < 192

/-- Model of Rust `str::is_char_boundary` over the byte sequence: index 0 and
the end are boundaries, an interior index is a boundary iff the byte there is
not a continuation byte. -/
def isCharBoundary (t : List Nat) (i : Nat) : Bool :=
  i == 0 || i == t.length || (decide (i < t.length) && !isContinuation (t.getD i 0))

/-- Model of the Rust slice expression `&text[a..b]`: `none` models the panic
raised when an index is out of range, out of order, or not a character
boundary. -/
def sliceChecked (t : List Nat) (a b : Nat) : Option (List Nat) :=
  if isCharBoundary t a && isCharBoundary t b && decide (a ≤ b) then some (sliceB t a b)
  else none

/-- Byte index of the last LF byte of a sequence, as Rust
`str::rfind('\n')` returns it (a LF is a one-byte character, so char index
and byte index coincide). -/
def rfindNl : List Nat → Option Nat
  | [] => none
  | b :: rest =>
    match rfindNl rest with
    | some i => some (i + 1)
    | none => if b = 10 then some 0 else none

/-! ## Data model: chunks and syntax-tree nodes -/

/-- `semantic_index::chunking_v2::Chunk`: a byte range into the source, the
chunk text, and a semantic tag. -/
structure Chunk where
  range : Nat × Nat
  content : List Nat
  elementType : String
deriving DecidableEq, Repr

/-- `code_parsers::CodeChunk`: line-addressed chunk produced by the parser. -/
structure CodeChunk where
  startLine : Nat
  endLine : Nat
  content : List Nat
  elementType : String
deriving DecidableEq, Repr

/-- A captured tree-sitter node, reduced to what `parse_with_query` reads
from it: its byte range in the source and the query capture name. Row
positions are recovered from the byte offsets (`start_position().row` is the
number of LF bytes before `startByte`, and `end_position().row` the number
before `endByte`, the position one past the node's last byte). -/
structure TSNode where
  startByte : Nat
  endByte : Nat
  captureName : String
deriving DecidableEq, Repr

/-- Row (zero-based line index) of the position `pos` bytes into `text`. -/
def rowOf (text : List Nat) (pos : Nat) : Nat := countNl (text.take pos)

/-! ## `chunk_text_simple` (chunking_v2.rs:49-76) -/

/-- One iteration structure of `chunk_text_simple`'s `while start < text.len()`
loop, with explicit fuel for termination. The fuel case is unreachable for a
positive `maxChunkSize` (each chunk consumes at least one byte); a distinct
error string keeps it apart from the boundary panic. -/
def chunkSimpleLoop (text : List Nat) (maxChunkSize : Nat) : Nat → Nat → Except String (List Chunk)
  | 0, _ => .error "out of fuel"
  | fuel + 1, start =>
    if start < text.length then
      let en := min (start + maxChunkSize) text.length
      let window : Option (List Nat) :=
        if en < text.length then sliceChecked text start en else some []
      match window with
      | none => .error "byte index is not a char boundary"
      | some w =>
        let chunkEnd :=
          if en < text.length then
            match rfindNl w with
            | some i => start + i + 1
            | none => en
          else en
        match sliceChecked text start chunkEnd with
        | none => .error "byte index is not a char boundary"
        | some contentBytes =>
          match chunkSimpleLoop text maxChunkSize fuel chunkEnd with
          | .error e => .error e
          | .ok rest =>
            .ok ({ range := (start, chunkEnd), content := contentBytes,
                   elementType := "text_block" } :: rest)
    else .ok []

/-- `chunk_text_simple(text, max_chunk_size)`: split raw text into byte
windows of at most `max_chunk_size` bytes, preferring to break just after the
last LF inside the window. An `.error` models a Rust panic. -/
def chunkTextSimple (text : List Nat) (maxChunkSize : Nat) : Except String (List Chunk) :=
  chunkSimpleLoop text maxChunkSize (text.length + 1) 0

/-! ## `CodeParser` (code-parsers/src/lib.rs) -/

/-- The keys of the `parsers` map built by `CodeParser::new` (lib.rs:17-93). -/
def supportedLanguages : List String := ["rust", "javascript", "typescript", "python", "go"]

/-- Model of Rust `str::ends_with` by character lists. -/
def strEndsWith (s sfx : String) : Bool :=
  s.toList.reverse.take sfx.toList.length == sfx.toList.reverse

/-- `CodeParser::detect_language` (lib.rs:173-187). -/
def detectLanguage (filePath : String) : String :=
  if strEndsWith filePath ".rs" then "rust"
  else if strEndsWith filePath ".js" || strEndsWith filePath ".jsx" then "javascript"
  else if strEndsWith filePath ".ts" || strEndsWith filePath ".tsx" then "typescript"
  else if strEndsWith filePath ".py" then "python"
  else if strEndsWith filePath ".go" then "go"
  else "unknown"

/-- Fuel-driven recursion for `listChunks`; the fuel only bounds the number
of iterations (one unit per emitted window, each of which consumes at least
one element when `chunkSize` is positive), so any fuel at least the list
length gives the same result (`listChunksAux_fuel`). -/
def listChunksAux (chunkSize : Nat) : Nat → List α → List (List α)
  | 0, _ => []
  | _, [] => []
  | fuel + 1, a :: as =>
    if chunkSize = 0 then []
    else (a :: as).take chunkSize :: listChunksAux chunkSize fuel ((a :: as).drop chunkSize)

/-- `lines.chunks(chunk_size)` on a list: successive windows of `chunkSize`
elements, the last possibly shorter. Rust's `chunks` panics on size 0; every
call site passes 50, and size 0 here yields `[]`. -/
def listChunks (chunkSize : Nat) (l : List α) : List (List α) :=
  listChunksAux chunkSize l.length l

/-- `chunk.join("\n")` over byte-sequence lines. -/
def joinNl (ls : List (List Nat)) : List Nat := List.intercalate [10] ls

/-- `CodeParser::chunk_by_lines` (lib.rs:154-171): fixed line windows, each a
`code_block` chunk with `start_line = i * chunk_size` and
`end_line = start_line + window length - 1`. -/
def chunkByLines (content : List Nat) (chunkSize : Nat) : List CodeChunk :=
  ((listChunks chunkSize (rustLines content)).enum).map fun p =>
    { startLine := p.1 * chunkSize,
      endLine := p.1 * chunkSize + p.2.length - 1,
      content := joinNl p.2,
      elementType := "code_block" }

/-- The chunk built for one captured node (lib.rs:131-142): row positions from
the node, content the byte slice `content[node.byte_range()]` (always on
character boundaries for a real node), element type the capture name. -/
def nodeChunk (content : List Nat) (n : TSNode) : CodeChunk :=
  { startLine := rowOf content n.startByte,
    endLine := rowOf content n.endByte,
    content := sliceB content n.startByte n.endByte,
    elementType := n.captureName }

/-- `CodeParser::parse_with_query` (lib.rs:115-152). The tree-sitter parse is
external; its outcome is the `parseResult` argument: `none` when
`Parser::parse` fails to build a tree (the `context("Failed to parse code")?`
path), `some nodes` the captured nodes of the query matches in match order.
Zero captures fall back to `chunk_by_lines(content, 50)`. -/
def parseWithQuery (content : List Nat) (parseResult : Option (List TSNode)) :
    Except String (List CodeChunk) :=
  match parseResult with
  | none => .error "Failed to parse code"
  | some nodes =>
    let chunks := nodes.map (nodeChunk content)
    .ok (if chunks.isEmpty then chunkByLines content 50 else chunks)

/-- `CodeParser::get_chunks_from_content` (lib.rs:106-113). -/
def getChunksFromContent (content : List Nat) (language : String)
    (parseResult : Option (List TSNode)) : Except String (List CodeChunk) :=
  if language ∈ supportedLanguages then parseWithQuery content parseResult
  else .ok (chunkByLines content 50)

/-- `CodeParser::get_chunks` (lib.rs:95-104). -/
def getChunks (filePath : String) (content : List Nat)
    (parseResult : Option (List TSNode)) : Except String (List CodeChunk) :=
  if detectLanguage filePath ∈ supportedLanguages then parseWithQuery content parseResult
  else .ok (chunkByLines content 50)

/-! ## `chunk_text` (chunking_v2.rs:13-47), grammar branch -/

/-- `text.lines().take(n).map(|l| l.len() + 1).sum()`: the byte-offset
reconstruction `chunk_text` performs from line lengths. -/
def lineLenSum (text : List Nat) (n : Nat) : Nat :=
  (((rustLines text).take n).map (fun l => l.length + 1)).sum

/-- The mapping applied to each parser chunk in `chunk_text`
(chunking_v2.rs:22-41): recompute a byte range from `start_line`/`end_line`
(with `saturating_sub(1)`, which is `Nat` subtraction) and keep the parser
chunk's content. -/
def chunkTextOne (text : List Nat) (pc : CodeChunk) : Chunk :=
  { range := (lineLenSum text pc.startLine, lineLenSum text (pc.endLine + 1) - 1),
    content := pc.content,
    elementType := pc.elementType }

/-- The `Some(lang)` branch of `chunk_text` (chunking_v2.rs:14-42): run the
parser on the content for the language name and map each parser chunk through
`chunkTextOne`. -/
def chunkTextGrammar (text : List Nat) (language : String)
    (parseResult : Option (List TSNode)) : Except String (List Chunk) :=
  (getChunksFromContent text language parseResult).map fun pcs =>
    pcs.map (chunkTextOne text)

/-! ## Qdrant vector store client (vector_store/qdrant.rs) -/

/-- `qdrant::point_id::PointIdOptions`: a point id is a UUID string or a
number. -/
inductive PointIdOpts where
  | uuid (s : String)
  | num (n : Nat)
deriving DecidableEq, Repr

/-- The delete request `delete_documents` issues: the collection name and
the encoded point ids. -/
structure DeletePointsCall where
  collection : String
  ids : List PointIdOpts
deriving DecidableEq, Repr

/-- `QdrantVectorStore::delete_documents` (qdrant.rs:156-173): every id
string is wrapped in `PointIdOptions::Uuid` unconditionally. -/
def deleteDocuments (collection : String) (ids : List String) : DeletePointsCall :=
  { collection := collection, ids := ids.map PointIdOpts.uuid }

/-- The point id `insert_documents` (qdrant.rs:66) attaches via
`PointStruct::new(doc.id, ...)`: the qdrant-client `From<String> for PointId`
conversion wraps the string in the `Uuid` variant. -/
def insertPointId (id : String) : PointIdOpts := PointIdOpts.uuid id

/-- A non-empty all-digits string. -/
def isDecimalString (s : String) : Bool :=
  !s.toList.isEmpty && s.toList.all Char.isDigit

/-- Decimal value of an all-digits string. -/
def decimalValue (s : String) : Nat :=
  s.toList.foldl (fun n c => n * 10 + (c.toNat - 48)) 0

/-- Modelled from the spec: the id encoding the spec describes ("the store
accepts UUID-shaped strings as UUID point ids and numeric strings as numeric
point ids"): a decimal string becomes a numeric point id, anything else a
UUID point id. Stated for comparison with `deleteDocuments`; it corresponds
to no code in qdrant.rs. -/
def specShapeEncodeId (id : String) : PointIdOpts :=
  if isDecimalString id then PointIdOpts.num (decimalValue id)
  else PointIdOpts.uuid id

/-- Model of Rust `str::contains(pat)`: `pat` occurs as a contiguous
subsequence of `s`. -/
def strContains (s pat : String) : Bool :=
  (List.range (s.toList.length + 1)).any fun i =>
    decide ((s.toList.drop i).take pat.toList.length = pat.toList)

/-- `QdrantVectorStore::collection_exists` (qdrant.rs:175-186). The backend
`collection_info` call is external; its outcome is the `describe` argument
(`.ok` when the collection can be described, `.error e` with the rendered
message otherwise). An error message containing the substring
`"doesn't exist"` maps to `Ok(false)`; every other error propagates. -/
def collectionExists (describe : Except String Unit) : Except String Bool :=
  match describe with
  | .ok _ => .ok true
  | .error e =>
    if strContains e "doesn't exist" then .ok false
    else .error e

/-- `qdrant::Distance` (the variants used here). -/
inductive Distance where
  | cosine
  | euclid
  | dot
deriving DecidableEq, Repr

/-- The create request `create_collection` would issue: name, dimension,
distance and on-disk flag (qdrant.rs:34-46). -/
structure CreateCollectionCall where
  name : String
  vectorSize : Nat
  distance : Distance
  onDisk : Bool
deriving DecidableEq, Repr

/-- `QdrantVectorStore::create_collection` (qdrant.rs:29-49): first consult
`collection_exists`; on `true` return at once issuing no call (`none`), on
`false` issue the creating call with cosine distance and on-disk storage
disabled, and propagate a lookup error. -/
def createCollection (name : String) (vectorSize : Nat)
    (describe : Except String Unit) : Except String (Option CreateCollectionCall) :=
  match collectionExists describe with
  | .error e => .error e
  | .ok true => .ok none
  | .ok false =>
    .ok (some { name := name, vectorSize := vectorSize,
                distance := Distance.cosine, onDisk := false })

/-! ## GPU embedding pooling (embedding/gpu.rs) -/

/-- Componentwise sum of two vectors, keeping the tail of the longer one
(rows of one tensor all share a length, so only the equal-length case
arises). -/
def vecAdd : List ℚ → List ℚ → List ℚ
  | [], ys => ys
  | x :: xs, [] => x :: xs
  | x :: xs, y :: ys => (x + y) :: vecAdd xs ys

/-- Sum of a list of vectors along the sequence axis. -/
def sumVecs (vs : List (List ℚ)) : List ℚ := vs.foldl vecAdd []

/-- The per-row divisor `mean_pool` uses (gpu.rs:227,
`attention_mask.sum(1)`): the raw attention-mask sum of the row, with no
clamping. Scalars are modelled as `ℚ`; in `f32`, dividing by this value when
it is zero yields NaN. -/
def meanPoolDivisor (maskRow : List ℚ) : ℚ := maskRow.sum

/-- One batch row of `TensorExt::mean_pool` (gpu.rs:224-229): multiply each
sequence position's hidden vector by its mask value, sum along the sequence
axis, and divide componentwise by the row's mask sum. -/
def meanPoolRow (hiddenRow : List (List ℚ)) (maskRow : List ℚ) : List ℚ :=
  let masked := (hiddenRow.zip maskRow).map fun p => p.1.map fun x => x * p.2
  (sumVecs masked).map fun x => x / meanPoolDivisor maskRow

/-- `TensorExt::mean_pool` over the whole batch. -/
def meanPool (hidden : List (List (List ℚ))) (mask : List (List ℚ)) : List (List ℚ) :=
  (hidden.zip mask).map fun p => meanPoolRow p.1 p.2

/-! ## Semantic search tool (semantic_search_tool.rs) -/

/-- `SemanticSearchInput` (semantic_search_tool.rs:12-20); the f32 threshold
is modelled as `ℚ`. -/
structure SemanticSearchInput where
  query : String
  limit : Option Nat
  threshold : Option ℚ
deriving DecidableEq, Repr

/-- The request `run` sends to the project index
(`index.search(vec![query.clone()], limit, cx)`, semantic_search_tool.rs:97):
the query list and the limit; no further argument. -/
structure IndexSearchCall where
  queries : List String
  limit : Nat
deriving DecidableEq, Repr

/-- The search call `run` constructs from its input (lines 78-99). -/
def searchCallOf (input : SemanticSearchInput) : IndexSearchCall :=
  { queries := [input.query], limit := input.limit.getD 10 }

/-- One loaded search result as `run` reads it (path, inclusive row range,
excerpt). The similarity `score` the index computed for it is carried along
to state score properties; `run` itself never reads it. -/
structure LoadedSearchResult where
  fullPath : String
  rowStart : Nat
  rowEnd : Nat
  excerptContent : String
  score : ℚ
deriving DecidableEq, Repr

/-- One rendered entry
(`"**{}:{}:{}**\n```\n{}\n```\n\n"`, semantic_search_tool.rs:112-118). -/
def renderResult (r : LoadedSearchResult) : String :=
  "**" ++ r.fullPath ++ ":" ++ toString r.rowStart ++ ":" ++ toString r.rowEnd
    ++ "**\n```\n" ++ r.excerptContent ++ "\n```\n\n"

/-- The report `run` renders from the loaded results (lines 78-122). The
threshold is computed exactly as in the source
(`search_input.threshold.unwrap_or(0.5)`, bound to the unused `_threshold`)
and, like there, influences nothing. -/
def semanticSearchOutput (input : SemanticSearchInput)
    (loadedResults : List LoadedSearchResult) : String :=
  let _threshold := input.threshold.getD (1 / 2)
  if loadedResults.isEmpty then "No results found for the query."
  else loadedResults.foldl (fun acc r => acc ++ renderResult r) ""

/-! ## Predicates used by the statements -/

/-- `chain s cs e`: the chunk ranges tile `[s, e)` consecutively — each chunk
starts where the previous one ended, the first at `s`, the last ending at
`e`. -/
def chain : Nat → List Chunk → Nat → Prop
  | s, [], e => s = e
  | s, c :: cs, e => c.range.1 = s ∧ chain c.range.2 cs e

/-- The text contains no CR byte (single-byte LF line terminators only). -/
def noCR (t : List Nat) : Prop := ¬ 13 ∈ t

/-- Byte position `n` is the start of a line of `t`: the very start of the
text, or just after a LF. -/
def lineStartAt (t : List Nat) (n : Nat) : Prop :=
  n ≤ t.length ∧ (n = 0 ∨ t.getD (n - 1) 0 = 10)

/-- Byte position `e` is the end of a line's content: either a LF sits at
`e`, or `e` is the end of a text that does not end in a LF. -/
def lineEndAt (t : List Nat) (e : Nat) : Prop :=
  (e < t.length ∧ t.getD e 0 = 10) ∨ (e = t.length ∧ t.getLast? ≠ some 10)

/-! ## Concrete inputs for the end-to-end statements -/

/-- The 125-line input of the line-window scenario: lines `"line 0"` to
`"line 124"`, LF-separated, no trailing newline. -/
def content125 : List Nat :=
  List.intercalate [10] ((List.range 125).map fun n => asciiBytes ("line " ++ toString n))

/-- A one-line Rust source with a `function_item` nested mid-line inside an
`impl_item`: tree-sitter-rust parses `"impl A { fn f() {} }"` with the
`function_item` node spanning bytes 9..18 (the text `"fn f() {}"`), rows
0..0, captured as `@function` by the query of lib.rs:26-32. -/
def implText : List Nat := asciiBytes "impl A { fn f() {} }"

/-- The 1002-byte input on which `chunk_text_simple` panics: 999 ASCII bytes,
then the two-byte UTF-8 character U+00E9 (bytes 195, 169), then one ASCII
byte. Byte offset 1000 falls on the continuation byte 169, inside the
two-byte character, so `&text[0..1000]` is not sliced at a character
boundary. -/
def c10FailingInput : List Nat := List.replicate 999 97 ++ [195, 169, 120]

deriving instance DecidableEq for Except

/-! # Theorems -/

/-! ## Helper lemmas on `listChunks` -/

theorem listChunksAux_fuel (cs : Nat) :
    ∀ (fuel fuelp : Nat) (l : List α), l.length ≤ fuel → l.length ≤ fuelp →
      listChunksAux cs fuel l = listChunksAux cs fuelp l := by
  intro fuel
  induction fuel with
  | zero =>
    intro fuelp l h _
    have hl : l = [] := List.eq_nil_of_length_eq_zero (Nat.le_zero.mp h)
    subst hl
    cases fuelp <;> rfl
  | succ n ih =>
    intro fuelp l h hp
    cases l with
    | nil => cases fuelp <;> rfl
    | cons a as =>
      cases fuelp with
      | zero => simp at hp
      | succ m =>
        simp only [listChunksAux]
        by_cases hcs : cs = 0
        · simp [hcs]
        · simp only [hcs, if_false]
          have hd : ((a :: as).drop cs).length ≤ n := by
            simp only [List.length_drop, List.length_cons]
            simp only [List.length_cons] at h
            omega
          have hdp : ((a :: as).drop cs).length ≤ m := by
            simp only [List.length_drop, List.length_cons]
            simp only [List.length_cons] at hp
            omega
          rw [ih m _ hd hdp]

theorem listChunks_nil (cs : Nat) : listChunks cs ([] : List α) = [] := rfl

theorem listChunks_cons (cs : Nat) (hcs : cs ≠ 0) (a : α) (as : List α) :
    listChunks cs (a :: as) = (a :: as).take cs :: listChunks cs ((a :: as).drop cs) := by
  show listChunksAux cs ((a :: as).length) (a :: as) = _
  simp only [List.length_cons, listChunksAux, hcs, if_false]
  congr 1
  exact listChunksAux_fuel cs as.length ((a :: as).drop cs).length _
    (by simp only [List.length_drop, List.length_cons]; omega) (le_refl _)

theorem listChunks_get? (cs : Nat) (hcs : cs ≠ 0) :
    ∀ (i : Nat) (l : List α), i < (listChunks cs l).length →
      (listChunks cs l).get? i = some ((l.drop (cs * i)).take cs) := by
  intro i
  induction i with
  | zero =>
    intro l h
    cases l with
    | nil => simp [listChunks_nil] at h
    | cons a as =>
      rw [listChunks_cons cs hcs]
      simp
  | succ i ih =>
    intro l h
    cases l with
    | nil => simp [listChunks_nil] at h
    | cons a as =>
      rw [listChunks_cons cs hcs] at h
      simp only [List.length_cons] at h
      have h2 : i < (listChunks cs ((a :: as).drop cs)).length := by omega
      rw [listChunks_cons cs hcs, List.get?_cons_succ, ih _ h2, List.drop_drop]
      congr 3
      ring

theorem listChunks_length (cs : Nat) (hcs : cs ≠ 0) :
    ∀ (n : Nat) (l : List α), l.length ≤ n →
      (listChunks cs l).length = if l.length = 0 then 0 else (l.length - 1) / cs + 1 := by
  intro n
  induction n with
  | zero =>
    intro l h
    have hl : l = [] := List.eq_nil_of_length_eq_zero (Nat.le_zero.mp h)
    simp [hl, listChunks_nil]
  | succ n ih =>
    intro l h
    cases l with
    | nil => simp [listChunks_nil]
    | cons a as =>
      rw [listChunks_cons cs hcs]
      simp only [List.length_cons, Nat.succ_ne_zero, if_false]
      by_cases hle : as.length + 1 ≤ cs
      · have hd : (a :: as).drop cs = [] := by
          apply List.drop_eq_nil_of_le
          simpa using hle
        rw [hd, listChunks_nil]
        have hz : as.length / cs = 0 := Nat.div_eq_of_lt (by omega)
        simp [hz]
      · have hlen : ((a :: as).drop cs).length = as.length + 1 - cs := by
          simp
        have hd : ((a :: as).drop cs).length ≤ n := by
          simp only [List.length_drop, List.length_cons]
          simp only [List.length_cons] at h
          omega
        rw [ih _ hd]
        simp only [hlen]
        have hne : ¬ (as.length + 1 - cs = 0) := by omega
        simp only [hne, if_false]
        have hcs1 : 0 < cs := Nat.pos_of_ne_zero hcs
        have harith : (as.length + 1 - 1) / cs = (as.length + 1 - cs - 1) / cs + 1 := by
          have heq : as.length + 1 - cs - 1 + cs = as.length + 1 - 1 := by omega
          rw [← heq, Nat.add_div_right _ hcs1]
        omega

/-! ## Helper lemmas on `splitNl` and `rustLines` -/

theorem splitNl_ne_nil : ∀ l : List Nat, splitNl l ≠ [] := by
  intro l
  cases l with
  | nil => simp [splitNl]
  | cons b rest =>
    simp only [splitNl]
    by_cases hb : b = 10
    · simp [hb]
    · simp only [hb, if_false]
      cases h : splitNl rest <;> simp

theorem splitNl_no_nl : ∀ l : List Nat, (∀ b ∈ l, b ≠ 10) → splitNl l = [l] := by
  intro l
  induction l with
  | nil => intro _; rfl
  | cons b rest ih =>
    intro h
    have hb : b ≠ 10 := h b (List.mem_cons_self b rest)
    have hr : splitNl rest = [rest] := ih fun x hx => h x (List.mem_cons_of_mem _ hx)
    simp [splitNl, hb, hr]

theorem splitNl_append (seg rest : List Nat) (h : ∀ b ∈ seg, b ≠ 10) :
    splitNl (seg ++ 10 :: rest) = seg :: splitNl rest := by
  induction seg with
  | nil => simp [splitNl]
  | cons b s ih =>
    have hb : b ≠ 10 := h b (List.mem_cons_self b s)
    have ih2 := ih fun x hx => h x (List.mem_cons_of_mem _ hx)
    simp [List.cons_append, splitNl, hb, ih2]

theorem stripCr_noCR (l : List Nat) (h : ¬ 13 ∈ l) : stripCr l = l := by
  unfold stripCr
  rw [if_neg]
  intro hc
  obtain ⟨hne, heq⟩ := List.mem_getLast?_eq_getLast (Option.mem_def.mpr hc)
  exact h (heq ▸ List.getLast_mem hne)

theorem rustLines_nil : rustLines [] = [] := rfl

theorem rustLines_single (l : List Nat) (hne : l ≠ []) (h : ∀ b ∈ l, b ≠ 10) :
    rustLines l = [l] := by
  cases l with
  | nil => exact absurd rfl hne
  | cons b bs =>
    unfold rustLines
    rw [if_neg hne, splitNl_no_nl _ h]
    rfl

theorem rustLines_cons (seg rest : List Nat) (h : ∀ b ∈ seg, b ≠ 10) :
    rustLines (seg ++ 10 :: rest) = stripCr seg :: rustLines rest := by
  have hne : seg ++ 10 :: rest ≠ [] := by simp
  unfold rustLines
  rw [if_neg hne, splitNl_append seg rest h]
  cases rest with
  | nil => rfl
  | cons r rs =>
    rw [if_neg (by simp : (r :: rs : List Nat) ≠ [])]
    obtain ⟨s0, ss, hss⟩ : ∃ s0 ss, splitNl (r :: rs) = s0 :: ss := by
      cases hsp : splitNl (r :: rs) with
      | nil => exact absurd hsp (splitNl_ne_nil _)
      | cons s0 ss => exact ⟨s0, ss, rfl⟩
    rw [hss, List.getLast?_cons_cons]
    have hlast := List.getLast?_eq_getLast (s0 :: ss) (by simp)
    rw [hlast]
    cases hval : (s0 :: ss).getLast (by simp) with
    | nil =>
      show ((seg :: s0 :: ss).dropLast.map stripCr : List (List Nat))
          = stripCr seg :: (s0 :: ss).dropLast.map stripCr
      rw [List.dropLast_cons₂, List.map_cons]
    | cons c csx =>
      show ((seg :: s0 :: ss).dropLast.map stripCr ++ [c :: csx] : List (List Nat))
          = stripCr seg :: ((s0 :: ss).dropLast.map stripCr ++ [c :: csx])
      rw [List.dropLast_cons₂, List.map_cons, List.cons_append]

theorem split_first_nl : ∀ t : List Nat, 10 ∈ t →
    ∃ seg rest, t = seg ++ 10 :: rest ∧ ∀ b ∈ seg, b ≠ 10 := by
  intro t
  induction t with
  | nil => intro h; cases h
  | cons b bs ih =>
    intro h
    by_cases hb : b = 10
    · exact ⟨[], bs, by simp [hb], by simp⟩
    · have hbs : 10 ∈ bs := by
        rcases List.mem_cons.mp h with h1 | h2
        · exact absurd h1.symm hb
        · exact h2
      obtain ⟨seg, rest, heq, hseg⟩ := ih hbs
      refine ⟨b :: seg, rest, by rw [heq, List.cons_append], ?_⟩
      intro x hx
      rcases List.mem_cons.mp hx with rfl | hx2
      · exact hb
      · exact hseg x hx2

/-- Byte offset of the start of the line a line-start position `n` lies on:
the `chunk_text` reconstruction `lines().take(row).map(len + 1).sum()`
recovers exactly `n` for a CR-free text. -/
theorem lineStart_sum :
    ∀ (N : Nat) (t : List Nat), t.length ≤ N → noCR t →
      ∀ n, lineStartAt t n → lineLenSum t (countNl (t.take n)) = n := by
  intro N
  induction N with
  | zero =>
    intro t hlen _ n hn
    have ht : t = [] := List.eq_nil_of_length_eq_zero (Nat.le_zero.mp hlen)
    subst ht
    have hn0 : n = 0 := by
      have := hn.1
      simp at this
      omega
    subst hn0
    simp [lineLenSum, countNl]
  | succ N ih =>
    intro t hlen hcr n hn
    by_cases hn0 : n = 0
    · subst hn0
      simp [lineLenSum, countNl]
    · obtain ⟨hnle, hd⟩ := hn
      rcases hd with rfl | hprev
      · exact absurd rfl hn0
      have hlt1 : n - 1 < t.length := by omega
      have h10 : 10 ∈ t := by
        rw [List.getD_eq_getElem t 0 hlt1] at hprev
        exact hprev ▸ List.getElem_mem hlt1
      obtain ⟨seg, rest, heq, hseg⟩ := split_first_nl t h10
      subst heq
      have hcr_seg : ¬ 13 ∈ seg := fun hx => hcr (List.mem_append.mpr (Or.inl hx))
      have hcr_rest : noCR rest := fun hx =>
        hcr (List.mem_append.mpr (Or.inr (List.mem_cons_of_mem _ hx)))
      have hrl : rustLines (seg ++ 10 :: rest) = seg :: rustLines rest := by
        rw [rustLines_cons seg rest hseg, stripCr_noCR seg hcr_seg]
      have hlen2 : (seg ++ 10 :: rest).length = seg.length + 1 + rest.length := by
        simp
        omega
      have hnL : seg.length + 1 ≤ n := by
        by_contra hcon
        push_neg at hcon
        have hlt : n - 1 < seg.length := by omega
        have hD : (seg ++ 10 :: rest).getD (n - 1) 0 = seg.getD (n - 1) 0 :=
          List.getD_append _ _ _ _ hlt
        rw [hD, List.getD_eq_getElem seg 0 hlt] at hprev
        exact hseg _ (hprev ▸ List.getElem_mem hlt) hprev
      have htake : (seg ++ 10 :: rest).take n = seg ++ 10 :: rest.take (n - seg.length - 1) := by
        have hn1 : n - seg.length = (n - seg.length - 1) + 1 := by omega
        rw [List.take_append_eq_append_take, List.take_of_length_le (by omega)]
        conv_lhs => rw [hn1, List.take_succ_cons]
      have hcount : countNl ((seg ++ 10 :: rest).take n)
          = countNl (rest.take (n - seg.length - 1)) + 1 := by
        rw [htake]
        unfold countNl
        rw [List.count_append, List.count_cons_self]
        have hz : seg.count 10 = 0 := by
          rw [List.count_eq_zero]
          intro hmem
          exact hseg 10 hmem rfl
        omega
      have hsum : lineLenSum (seg ++ 10 :: rest) (countNl (rest.take (n - seg.length - 1)) + 1)
          = (seg.length + 1) + lineLenSum rest (countNl (rest.take (n - seg.length - 1))) := by
        unfold lineLenSum
        rw [hrl, List.take_succ_cons, List.map_cons, List.sum_cons]
      have hstart_rest : lineStartAt rest (n - seg.length - 1) := by
        constructor
        · rw [hlen2] at hnle
          omega
        · by_cases hn1 : n - seg.length - 1 = 0
          · exact Or.inl hn1
          · right
            have hD : (seg ++ 10 :: rest).getD (n - 1) 0 = (10 :: rest).getD (n - 1 - seg.length) 0 :=
              List.getD_append_right _ _ _ _ (by omega)
            rw [hD] at hprev
            have hsucc : n - 1 - seg.length = (n - 1 - seg.length - 1) + 1 := by omega
            rw [hsucc, List.getD_cons_succ] at hprev
            have hidx : n - seg.length - 1 - 1 = n - 1 - seg.length - 1 := by omega
            rw [hidx]
            exact hprev
      have hrest_len : rest.length ≤ N := by
        rw [hlen2] at hlen
        omega
      have hih := ih rest hrest_len hcr_rest (n - seg.length - 1) hstart_rest
      rw [hcount, hsum, hih]
      omega

/-- Byte offset one past the end of the line a line-end position `e` lies
on: the `chunk_text` reconstruction
`lines().take(row + 1).map(len + 1).sum()` yields `e + 1` for a CR-free,
non-empty text. -/
theorem lineEnd_sum :
    ∀ (N : Nat) (t : List Nat), t.length ≤ N → noCR t → t ≠ [] →
      ∀ e, lineEndAt t e → lineLenSum t (countNl (t.take e) + 1) = e + 1 := by
  intro N
  induction N with
  | zero =>
    intro t hlen _ hne _ _
    exact absurd (List.eq_nil_of_length_eq_zero (Nat.le_zero.mp hlen)) hne
  | succ N ih =>
    intro t hlen hcr hne e he
    by_cases h10 : 10 ∈ t
    · obtain ⟨seg, rest, heq, hseg⟩ := split_first_nl t h10
      subst heq
      have hcr_seg : ¬ 13 ∈ seg := fun hx => hcr (List.mem_append.mpr (Or.inl hx))
      have hcr_rest : noCR rest := fun hx =>
        hcr (List.mem_append.mpr (Or.inr (List.mem_cons_of_mem _ hx)))
      have hrl : rustLines (seg ++ 10 :: rest) = seg :: rustLines rest := by
        rw [rustLines_cons seg rest hseg, stripCr_noCR seg hcr_seg]
      have hlen2 : (seg ++ 10 :: rest).length = seg.length + 1 + rest.length := by
        simp
        omega
      have hzc : seg.count 10 = 0 := by
        rw [List.count_eq_zero]
        intro hmem
        exact hseg 10 hmem rfl
      rcases Nat.lt_trichotomy e seg.length with hlt | heqL | hgt
      · -- e inside seg: impossible, the byte there is not a LF and e is not the end
        exfalso
        rcases he with ⟨helt, hD⟩ | ⟨heqlen, _⟩
        · rw [List.getD_append _ _ _ _ hlt, List.getD_eq_getElem seg 0 hlt] at hD
          exact hseg _ (hD ▸ List.getElem_mem hlt) hD
        · rw [hlen2] at heqlen
          omega
      · -- e is the separating LF
        subst heqL
        have htake : (seg ++ 10 :: rest).take seg.length = seg := by
          rw [List.take_append_eq_append_take, List.take_of_length_le (le_refl _),
              Nat.sub_self]
          simp
        have hcount : countNl ((seg ++ 10 :: rest).take seg.length) = 0 := by
          rw [htake]
          exact hzc
        rw [hcount]
        unfold lineLenSum
        rw [hrl, List.take_succ_cons, List.take_zero, List.map_cons, List.map_nil,
            List.sum_cons, List.sum_nil]
        omega
      · -- e beyond the separating LF: recurse into rest
        have hrest_ne : rest ≠ [] := by
          intro hrnil
          subst hrnil
          rcases he with ⟨helt, _⟩ | ⟨heqlen, hlast⟩
          · rw [hlen2] at helt
            simp at helt
            omega
          · exact hlast (List.getLast?_concat _)
        have hend_rest : lineEndAt rest (e - seg.length - 1) := by
          rcases he with ⟨helt, hD⟩ | ⟨heqlen, hlast⟩
          · left
            constructor
            · rw [hlen2] at helt
              omega
            · have hDr : (seg ++ 10 :: rest).getD e 0 = (10 :: rest).getD (e - seg.length) 0 :=
                List.getD_append_right _ _ _ _ (by omega)
              rw [hDr] at hD
              have hsucc : e - seg.length = (e - seg.length - 1) + 1 := by omega
              rw [hsucc, List.getD_cons_succ] at hD
              exact hD
          · right
            constructor
            · rw [hlen2] at heqlen
              omega
            · intro hc
              apply hlast
              rw [List.getLast?_append_cons]
              cases rest with
              | nil => exact absurd rfl hrest_ne
              | cons r rs =>
                rw [List.getLast?_cons_cons]
                exact hc
        have htake : (seg ++ 10 :: rest).take e = seg ++ 10 :: rest.take (e - seg.length - 1) := by
          have he1 : e - seg.length = (e - seg.length - 1) + 1 := by omega
          rw [List.take_append_eq_append_take, List.take_of_length_le (by omega)]
          conv_lhs => rw [he1, List.take_succ_cons]
        have hcount : countNl ((seg ++ 10 :: rest).take e)
            = countNl (rest.take (e - seg.length - 1)) + 1 := by
          rw [htake]
          unfold countNl
          rw [List.count_append, List.count_cons_self]
          omega
        have hsum : lineLenSum (seg ++ 10 :: rest)
              (countNl (rest.take (e - seg.length - 1)) + 1 + 1)
            = (seg.length + 1)
              + lineLenSum rest (countNl (rest.take (e - seg.length - 1)) + 1) := by
          unfold lineLenSum
          rw [hrl, List.take_succ_cons, List.map_cons, List.sum_cons]
        have hrest_len : rest.length ≤ N := by
          rw [hlen2] at hlen
          omega
        have hih := ih rest hrest_len hcr_rest hrest_ne (e - seg.length - 1) hend_rest
        rw [hcount, hsum, hih]
        omega
    · -- no LF at all: e must be the end of the text
      have hseg : ∀ b ∈ t, b ≠ 10 := fun b hb hbeq => h10 (hbeq ▸ hb)
      rcases he with ⟨helt, hD⟩ | ⟨heqlen, _⟩
      · exfalso
        rw [List.getD_eq_getElem t 0 helt] at hD
        exact hseg _ (hD ▸ List.getElem_mem helt) hD
      · subst heqlen
        have hcount : countNl (t.take t.length) = 0 := by
          rw [List.take_of_length_le (le_refl _)]
          unfold countNl
          rw [List.count_eq_zero]
          intro hmem
          exact hseg 10 hmem rfl
        rw [hcount]
        unfold lineLenSum
        rw [rustLines_single t hne hseg, List.take_succ_cons, List.take_zero,
            List.map_cons, List.map_nil, List.sum_cons, List.sum_nil]
        omega

/-! ## Helper lemmas on byte slicing and `chunk_text_simple` -/

theorem isCharBoundary_le (t : List Nat) (i : Nat) (h : isCharBoundary t i = true) :
    i ≤ t.length := by
  unfold isCharBoundary at h
  rcases Bool.or_eq_true_iff.mp h with h1 | h2
  · rcases Bool.or_eq_true_iff.mp h1 with h0 | hlen
    · have hi : i = 0 := by simpa using h0
      omega
    · have hi : i = t.length := by simpa using hlen
      omega
  · have hi : i < t.length := of_decide_eq_true (Bool.and_eq_true_iff.mp h2).1
    omega

theorem rfindNl_lt : ∀ (l : List Nat) (i : Nat), rfindNl l = some i → i < l.length := by
  intro l
  induction l with
  | nil => intro i h; simp [rfindNl] at h
  | cons b rest ih =>
    intro i h
    simp only [rfindNl] at h
    cases hr : rfindNl rest with
    | some j =>
      rw [hr] at h
      have hij : j + 1 = i := Option.some.inj h
      have := ih j hr
      simp only [List.length_cons]
      omega
    | none =>
      rw [hr] at h
      by_cases hb : b = 10
      · simp only [hb, if_pos rfl] at h
        have : (0 : Nat) = i := Option.some.inj h
        simp only [List.length_cons]
        omega
      · simp [hb] at h

theorem sliceB_length (t : List Nat) (a b : Nat) (hb : b ≤ t.length) :
    (sliceB t a b).length = b - a := by
  unfold sliceB
  rw [List.length_drop, List.length_take, Nat.min_eq_left hb]

theorem sliceChecked_some (t : List Nat) (a b : Nat) (w : List Nat)
    (h : sliceChecked t a b = some w) :
    a ≤ b ∧ b ≤ t.length ∧ w = sliceB t a b := by
  unfold sliceChecked at h
  split at h
  case isTrue hcond =>
    have hparts := Bool.and_eq_true_iff.mp hcond
    have hparts2 := Bool.and_eq_true_iff.mp hparts.1
    refine ⟨of_decide_eq_true hparts.2, isCharBoundary_le t b hparts2.2, ?_⟩
    exact (Option.some.inj h).symm
  case isFalse => cases h

theorem chunkSimpleLoop_spec (text : List Nat) (maxCS : Nat) :
    ∀ (fuel start : Nat) (cs : List Chunk),
      start ≤ text.length →
      chunkSimpleLoop text maxCS fuel start = Except.ok cs →
      chain start cs text.length
      ∧ ∀ c ∈ cs, c.range.2 - c.range.1 ≤ maxCS ∧ c.range.1 ≤ c.range.2
          ∧ c.content = sliceB text c.range.1 c.range.2
          ∧ c.elementType = "text_block" := by
  intro fuel
  induction fuel with
  | zero =>
    intro start cs _ hok
    simp [chunkSimpleLoop] at hok
  | succ n ih =>
    intro start cs hle hok
    by_cases hlt : start < text.length
    · simp only [chunkSimpleLoop, if_pos hlt] at hok
      by_cases hen : min (start + maxCS) text.length < text.length
      · simp only [if_pos hen] at hok
        split at hok
        · cases hok
        · rename_i w hw
          obtain ⟨hsw, henl, hwval⟩ := sliceChecked_some _ _ _ _ hw
          have hwlen : w.length = min (start + maxCS) text.length - start := by
            rw [hwval, sliceB_length _ _ _ henl]
          have hceEn :
              (match rfindNl w with
               | some i => start + i + 1
               | none => min (start + maxCS) text.length)
              ≤ min (start + maxCS) text.length := by
            cases hr : rfindNl w with
            | some i0 =>
              have hi0 : i0 < w.length := rfindNl_lt w i0 hr
              rw [hwlen] at hi0
              show start + i0 + 1 ≤ min (start + maxCS) text.length
              omega
            | none => simp only [le_refl]
          generalize hCE :
              (match rfindNl w with
               | some i => start + i + 1
               | none => min (start + maxCS) text.length) = chunkEnd at hok hceEn
          split at hok
          · cases hok
          · rename_i contentBytes h2
            obtain ⟨hs2, hl2, hcval⟩ := sliceChecked_some _ _ _ _ h2
            split at hok
            · cases hok
            · rename_i rest hrec
              obtain rfl : _ = cs := Except.ok.inj hok
              obtain ⟨hchain, hprops⟩ := ih chunkEnd rest hl2 hrec
              constructor
              · exact ⟨rfl, hchain⟩
              · intro c hc
                rcases List.mem_cons.mp hc with rfl | hmem
                · refine ⟨?_, hs2, hcval, rfl⟩
                  show chunkEnd - start ≤ maxCS
                  have hml := Nat.min_le_left (start + maxCS) text.length
                  omega
                · exact hprops c hmem
      · simp only [if_neg hen] at hok
        split at hok
        · cases hok
        · rename_i contentBytes h2
          obtain ⟨hs2, hl2, hcval⟩ := sliceChecked_some _ _ _ _ h2
          split at hok
          · cases hok
          · rename_i rest hrec
            obtain rfl : _ = cs := Except.ok.inj hok
            obtain ⟨hchain, hprops⟩ := ih _ rest hl2 hrec
            constructor
            · exact ⟨rfl, hchain⟩
            · intro c hc
              rcases List.mem_cons.mp hc with rfl | hmem
              · refine ⟨?_, hs2, hcval, rfl⟩
                show min (start + maxCS) text.length - start ≤ maxCS
                have hml := Nat.min_le_left (start + maxCS) text.length
                omega
              · exact hprops c hmem
    · simp only [chunkSimpleLoop, if_neg hlt] at hok
      obtain rfl : _ = cs := Except.ok.inj hok
      refine ⟨?_, by intro c hc; cases hc⟩
      show start = text.length
      omega

/-- C1 counterexample: a grammar chunk whose node starts mid-line violates
`content == source[byte_range]`. For the one-line source
`"impl A { fn f() {} }"` tree-sitter-rust captures the `function_item` node
at bytes 9..18 (rows 0..0); `chunk_text` recomputes the byte range from the
line numbers as 0..20, the whole line, so the slice at the recorded range is
`"impl A { fn f() {} }"` while the chunk's content is `"fn f() {}"`. -/
theorem chunk_text_byte_range_cex :
    chunkTextGrammar implText "rust" (some [⟨9, 18, "function"⟩])
      = Except.ok [{ range := (0, 20), content := asciiBytes "fn f() {}",
                     elementType := "function" }]
    ∧ asciiBytes "fn f() {}" ≠ sliceB implText 0 20 :=
  ⟨rfl, by decide⟩

/-- C1 (amended): for a CR-free source, the byte range `chunk_text`
reconstructs from a parser chunk's line numbers is the full-line extension
of the node: it equals the node's own byte range — and then
`content == source[byte_range]` holds byte-for-byte — exactly when the node
starts at the beginning of its start line and ends at the end of its end
line (with the text not ending in a newline when the node ends at the end of
text). Nodes that begin or end mid-line, as in the counterexample, violate
the equation. -/
theorem chunk_text_byte_range_amended :
    ∀ (text : List Nat) (node : TSNode),
      noCR text →
      lineStartAt text node.startByte →
      lineEndAt text node.endByte →
      (chunkTextOne text (nodeChunk text node)).range.1 = node.startByte
      ∧ (chunkTextOne text (nodeChunk text node)).range.2 = node.endByte
      ∧ (chunkTextOne text (nodeChunk text node)).content
          = sliceB text (chunkTextOne text (nodeChunk text node)).range.1
              (chunkTextOne text (nodeChunk text node)).range.2 := by
  intro text node hcr hs he
  have h1 : (chunkTextOne text (nodeChunk text node)).range.1 = node.startByte := by
    show lineLenSum text (countNl (text.take node.startByte)) = node.startByte
    exact lineStart_sum text.length text (le_refl _) hcr node.startByte hs
  have h2 : (chunkTextOne text (nodeChunk text node)).range.2 = node.endByte := by
    show lineLenSum text (countNl (text.take node.endByte) + 1) - 1 = node.endByte
    by_cases ht : text = []
    · subst ht
      rcases he with ⟨hlt, _⟩ | ⟨heq, _⟩
      · simp at hlt
      · simp only [List.length_nil] at heq
        rw [heq]
        simp [lineLenSum, countNl, rustLines_nil]
    · rw [lineEnd_sum text.length text (le_refl _) hcr ht node.endByte he]
      omega
  refine ⟨h1, h2, ?_⟩
  rw [h1, h2]
  rfl

/-- C1 witness: the amended theorem applied to `"fn f() {}\n"` with the
`function_item` node at bytes 0..9 — a node starting at column 0 and ending
at its line's end — where the recomputed range is exactly 0..9 and content
matches the slice. -/
theorem chunk_text_byte_range_amended_witness :
    (chunkTextOne (asciiBytes "fn f() {}\n")
        (nodeChunk (asciiBytes "fn f() {}\n") ⟨0, 9, "function"⟩)).range.1 = 0
    ∧ (chunkTextOne (asciiBytes "fn f() {}\n")
        (nodeChunk (asciiBytes "fn f() {}\n") ⟨0, 9, "function"⟩)).range.2 = 9
    ∧ (chunkTextOne (asciiBytes "fn f() {}\n")
        (nodeChunk (asciiBytes "fn f() {}\n") ⟨0, 9, "function"⟩)).content
        = sliceB (asciiBytes "fn f() {}\n")
            (chunkTextOne (asciiBytes "fn f() {}\n")
              (nodeChunk (asciiBytes "fn f() {}\n") ⟨0, 9, "function"⟩)).range.1
            (chunkTextOne (asciiBytes "fn f() {}\n")
              (nodeChunk (asciiBytes "fn f() {}\n") ⟨0, 9, "function"⟩)).range.2 :=
  chunk_text_byte_range_amended (asciiBytes "fn f() {}\n") ⟨0, 9, "function"⟩
    (by unfold noCR; decide) (by unfold lineStartAt; decide) (by unfold lineEndAt; decide)

/-- C6: whenever chunking raw text (no language) completes, the produced
byte ranges tile the text with no gaps and no overlaps — the first chunk
starts at 0, each chunk starts where the previous ended, and the last ends
at `text.len()` — every range spans at most 1000 bytes, every chunk's
content is the text restricted to its range, and every element type is
`"text_block"`. (Completion fails only on the UTF-8 boundary panic treated
under the totality claim.) -/
theorem chunk_text_simple_partition :
    ∀ (text : List Nat) (cs : List Chunk),
      chunkTextSimple text 1000 = Except.ok cs →
      chain 0 cs text.length
      ∧ ∀ c ∈ cs, c.range.2 - c.range.1 ≤ 1000 ∧ c.range.1 ≤ c.range.2
          ∧ c.content = sliceB text c.range.1 c.range.2
          ∧ c.elementType = "text_block" :=
  fun text cs h =>
    chunkSimpleLoop_spec text 1000 (text.length + 1) 0 cs (Nat.zero_le _) h

set_option maxRecDepth 4000000 in
/-- C6 witness: the partition theorem applied to a 1201-byte input (600
copies of `a`, a newline, 600 copies of `b`): the first window is broken at
the newline (range 0..601) and the remainder forms the second chunk
(601..1201), tiling the whole text. -/
theorem chunk_text_simple_partition_witness :
    chain 0
      [{ range := (0, 601), content := List.replicate 600 97 ++ [10],
         elementType := "text_block" },
       { range := (601, 1201), content := List.replicate 600 98,
         elementType := "text_block" }]
      (List.replicate 600 97 ++ [10] ++ List.replicate 600 98 : List Nat).length :=
  (chunk_text_simple_partition (List.replicate 600 97 ++ [10] ++ List.replicate 600 98)
    [{ range := (0, 601), content := List.replicate 600 97 ++ [10],
       elementType := "text_block" },
     { range := (601, 1201), content := List.replicate 600 98,
       elementType := "text_block" }] (by decide)).1

/-- C5 counterexample: `delete_documents` does not encode ids by shape. The
numeric string `"42"` is wrapped in `PointIdOptions::Uuid` (qdrant.rs:160),
not encoded as the numeric point id the claim describes. -/
theorem delete_documents_shape_cex :
    (deleteDocuments "code" ["42"]).ids = [PointIdOpts.uuid "42"]
    ∧ specShapeEncodeId "42" = PointIdOpts.num 42
    ∧ (deleteDocuments "code" ["42"]).ids ≠ [specShapeEncodeId "42"] := by
  refine ⟨rfl, by decide, by decide⟩

/-- C5 (amended): `delete_documents` encodes every id uniformly as a UUID
point id carrying the original string — as `insert_documents` does through
the `From<String>` conversion — so the delete request addresses exactly the
point ids under which the documents were inserted; numeric strings are never
encoded as numeric point ids. -/
theorem delete_documents_uuid_encoding :
    ∀ (collection : String) (ids : List String) (s : String),
      (deleteDocuments collection ids).ids = ids.map PointIdOpts.uuid
      ∧ (deleteDocuments collection ids).collection = collection
      ∧ (deleteDocuments collection [s]).ids = [insertPointId s] := by
  intro collection ids s
  exact ⟨rfl, rfl, rfl⟩

/-- C8 counterexample: a backend error reading "not found" (without the
literal substring `"doesn't exist"`) is propagated as an error by
`collection_exists`, not returned as `Ok(false)` as the claim states. -/
theorem collection_exists_not_found_cex :
    collectionExists (Except.error "Collection code not found") =
      Except.error "Collection code not found"
    ∧ collectionExists (Except.error "Collection code not found") ≠ Except.ok false := by
  refine ⟨rfl, ?_⟩
  decide

/-- C8 (amended): `collection_exists` returns `Ok(true)` exactly when the
backend describes the collection; an error whose rendered message contains
the substring `"doesn't exist"` is returned as `Ok(false)`; every other
error — including one that says "not found" without that substring — is
propagated unchanged. -/
theorem collection_exists_amended :
    ∀ describe : Except String Unit,
      (∀ u, describe = Except.ok u → collectionExists describe = Except.ok true)
      ∧ (∀ e, describe = Except.error e → strContains e "doesn't exist" = true →
          collectionExists describe = Except.ok false)
      ∧ (∀ e, describe = Except.error e → strContains e "doesn't exist" = false →
          collectionExists describe = Except.error e) := by
  intro describe
  refine ⟨?_, ?_, ?_⟩
  · rintro u rfl
    rfl
  · rintro e rfl h
    simp [collectionExists, h]
  · rintro e rfl h
    simp [collectionExists, h]

/-- C8 witness: the amended theorem applied to a described collection, to a
"doesn't exist" error, and to a "not found" error. -/
theorem collection_exists_amended_witness :
    collectionExists (Except.ok ()) = Except.ok true
    ∧ collectionExists (Except.error "Collection `c` doesn't exist") = Except.ok false
    ∧ collectionExists (Except.error "Collection c not found") =
        Except.error "Collection c not found" :=
  ⟨(collection_exists_amended (Except.ok ())).1 () rfl,
   (collection_exists_amended (Except.error "Collection `c` doesn't exist")).2.1 _ rfl (by decide),
   (collection_exists_amended (Except.error "Collection c not found")).2.2 _ rfl (by decide)⟩

/-- C9: `create_collection` is idempotent. When the existence probe answers
`true` it succeeds at once and issues no creating call; when the probe
answers `false` it issues exactly one creating call with cosine distance,
on-disk storage disabled and the declared dimension; a probe error
propagates. -/
theorem create_collection_idempotent :
    ∀ (name : String) (size : Nat) (describe : Except String Unit),
      (collectionExists describe = Except.ok true →
        createCollection name size describe = Except.ok none)
      ∧ (collectionExists describe = Except.ok false →
        createCollection name size describe =
          Except.ok (some { name := name, vectorSize := size,
                            distance := Distance.cosine, onDisk := false }))
      ∧ (∀ e, collectionExists describe = Except.error e →
          createCollection name size describe = Except.error e) := by
  intro name size describe
  refine ⟨fun h => ?_, fun h => ?_, fun e h => ?_⟩ <;>
    simp [createCollection, h]

/-- C9 witness: a collection the probe describes is not re-created, and a
missing one is created with the declared parameters. -/
theorem create_collection_idempotent_witness :
    createCollection "chunks" 1536 (Except.ok ()) = Except.ok none
    ∧ createCollection "chunks" 1536 (Except.error "Collection `chunks` doesn't exist") =
        Except.ok (some { name := "chunks", vectorSize := 1536,
                          distance := Distance.cosine, onDisk := false }) :=
  ⟨(create_collection_idempotent "chunks" 1536 (Except.ok ())).1 rfl,
   (create_collection_idempotent "chunks" 1536
      (Except.error "Collection `chunks` doesn't exist")).2.1 (by decide)⟩

/-- C2: the semantic-search tool computes the threshold (default 0.5) but
never applies it. The search request it builds carries only the query and
the limit, the rendered report does not depend on the threshold at all, and
a result whose similarity score (1/10) is far below both a caller-supplied
threshold (9/10) and the default 0.5 is still rendered in full. -/
theorem semantic_search_threshold_ignored :
    (∀ (q : String) (l : Option Nat) (t tp : Option ℚ) (rs : List LoadedSearchResult),
        semanticSearchOutput ⟨q, l, t⟩ rs = semanticSearchOutput ⟨q, l, tp⟩ rs
        ∧ searchCallOf ⟨q, l, t⟩ = searchCallOf ⟨q, l, tp⟩)
    ∧ semanticSearchOutput ⟨"anything", none, some (9/10)⟩
        [⟨"math.rs", 0, 0, "fn add", 1/10⟩]
        = "**math.rs:0:0**\n```\nfn add\n```\n\n"
    ∧ ((1 : ℚ)/10 < 9/10) := by
  refine ⟨fun q l t tp rs => ⟨rfl, rfl⟩, rfl, by norm_num⟩

/-- C4: the masked mean pool's per-row divisor is the raw attention-mask sum
with no epsilon clamp: for an all-padding row the divisor is exactly 0 (in
`f32`, `0/0 = NaN`), and it equals no positive epsilon. The `ℚ` model
returns 0 for the division by zero; the point established is that the
divisor itself is unguarded, contrary to the claim. -/
theorem mean_pool_divisor_unclamped :
    meanPoolDivisor [0, 0] = 0
    ∧ meanPool [[[1], [2]]] [[0, 0]] = [[0]]
    ∧ (∀ eps : ℚ, 0 < eps → meanPoolDivisor [0, 0] ≠ eps) := by
  have h0 : meanPoolDivisor [0, 0] = 0 := by
    simp [meanPoolDivisor]
  refine ⟨h0, ?_, fun eps h => ?_⟩
  · simp [meanPool, meanPoolRow, sumVecs, vecAdd, meanPoolDivisor]
  · rw [h0]
    exact (ne_of_gt h).symm

/-- C4 witness: the unclamped-divisor theorem applied at epsilon 1. -/
theorem mean_pool_divisor_unclamped_witness :
    meanPoolDivisor [0, 0] = 0 ∧ meanPoolDivisor [0, 0] ≠ 1 :=
  ⟨mean_pool_divisor_unclamped.1, mean_pool_divisor_unclamped.2.2 1 one_pos⟩

/-- C3 counterexample: when the syntax-tree build fails (`Parser::parse`
returns no tree), `get_chunks_from_content` on a supported language returns
the error `"Failed to parse code"` — it does not return the line-window
fallback chunks, contrary to the claim. -/
theorem parse_failure_cex :
    getChunksFromContent (asciiBytes "fn f() {}") "rust" none
      = Except.error "Failed to parse code"
    ∧ getChunksFromContent (asciiBytes "fn f() {}") "rust" none
        ≠ Except.ok (chunkByLines (asciiBytes "fn f() {}") 50) := by
  refine ⟨rfl, by decide⟩

/-- C3 (amended): a parse failure inside `parse_with_query` is propagated as
an error to the caller of `get_chunks` / `get_chunks_from_content`; the
line-window fallback is returned only when the language is unsupported, or
when parsing succeeds and the query yields zero captures. -/
theorem parse_failure_propagates :
    ∀ (content : List Nat) (lang : String) (pr : Option (List TSNode)),
      (lang ∈ supportedLanguages →
        getChunksFromContent content lang none = Except.error "Failed to parse code")
      ∧ (lang ∈ supportedLanguages →
        getChunksFromContent content lang (some []) = Except.ok (chunkByLines content 50))
      ∧ (¬ lang ∈ supportedLanguages →
        getChunksFromContent content lang pr = Except.ok (chunkByLines content 50)) := by
  intro content lang pr
  refine ⟨fun h => ?_, fun h => ?_, fun h => ?_⟩ <;>
    simp [getChunksFromContent, h, parseWithQuery]

/-- C3 witness: the amended theorem applied to a supported language with a
failed parse, a supported language with zero captures, and an unsupported
language. -/
theorem parse_failure_propagates_witness :
    getChunksFromContent (asciiBytes "fn") "rust" none = Except.error "Failed to parse code"
    ∧ getChunksFromContent (asciiBytes "fn") "rust" (some [])
        = Except.ok (chunkByLines (asciiBytes "fn") 50)
    ∧ getChunksFromContent (asciiBytes "fn") "brainfuck" none
        = Except.ok (chunkByLines (asciiBytes "fn") 50) :=
  ⟨(parse_failure_propagates (asciiBytes "fn") "rust" none).1 (by decide),
   (parse_failure_propagates (asciiBytes "fn") "rust" none).2.1 (by decide),
   (parse_failure_propagates (asciiBytes "fn") "brainfuck" none).2.2 (by decide)⟩

/-- The shape of the `i`-th chunk `chunk_by_lines` emits. -/
theorem chunkByLines_get (content : List Nat) (cs : Nat) (hcs : cs ≠ 0)
    (i : Nat) (h : i < (chunkByLines content cs).length) :
    (chunkByLines content cs).get ⟨i, h⟩ =
      { startLine := i * cs,
        endLine := i * cs + (((rustLines content).drop (cs * i)).take cs).length - 1,
        content := joinNl (((rustLines content).drop (cs * i)).take cs),
        elementType := "code_block" } := by
  have hL : i < (listChunks cs (rustLines content)).length := by
    simpa [chunkByLines] using h
  have hw := listChunks_get? cs hcs i (rustLines content) hL
  rw [List.get?_eq_get hL] at hw
  have hval : (listChunks cs (rustLines content)).get ⟨i, hL⟩
      = ((rustLines content).drop (cs * i)).take cs := Option.some.inj hw
  show ((listChunks cs (rustLines content)).enum.map _).get ⟨i, h⟩ = _
  rw [List.get_eq_getElem, List.getElem_map, List.getElem_enum]
  rw [List.get_eq_getElem] at hval
  rw [hval]

set_option maxRecDepth 4000000 in
/-- C7: for every content whose language is unsupported (and for supported
languages whose parse yields zero captures) the chunker falls back to
`chunk_by_lines(content, 50)`, which emits one `code_block` chunk per window
of 50 lines, the `i`-th with `start_line = i * 50` and
`end_line = start_line + window length - 1`; on the 125-line input the three
chunks carry start lines 0, 50, 100 and end lines 49, 99, 124. -/
theorem chunk_by_lines_windows :
    (∀ (content : List Nat) (lang : String) (pr : Option (List TSNode)),
      ¬ lang ∈ supportedLanguages →
        getChunksFromContent content lang pr = Except.ok (chunkByLines content 50))
    ∧ (∀ content : List Nat,
        parseWithQuery content (some []) = Except.ok (chunkByLines content 50))
    ∧ (∀ (content : List Nat) (i : Nat) (h : i < (chunkByLines content 50).length),
        ((chunkByLines content 50).get ⟨i, h⟩).startLine = i * 50
        ∧ ((chunkByLines content 50).get ⟨i, h⟩).endLine
            = i * 50 + min 50 ((rustLines content).length - 50 * i) - 1
        ∧ ((chunkByLines content 50).get ⟨i, h⟩).elementType = "code_block")
    ∧ (∀ content : List Nat,
        (chunkByLines content 50).length =
          if (rustLines content).length = 0 then 0
          else ((rustLines content).length - 1) / 50 + 1)
    ∧ (getChunks "x.unknown" content125 none = Except.ok (chunkByLines content125 50)
       ∧ (chunkByLines content125 50).map (fun c => (c.startLine, c.endLine, c.elementType))
          = [(0, 49, "code_block"), (50, 99, "code_block"), (100, 124, "code_block")]) := by
  refine ⟨?_, ?_, ?_, ?_, rfl, by decide⟩
  · intro content lang pr h
    simp [getChunksFromContent, h]
  · intro content
    rfl
  · intro content i h
    rw [chunkByLines_get content 50 (by decide) i h]
    refine ⟨rfl, ?_, rfl⟩
    simp [List.length_take, List.length_drop, Nat.min_comm]
  · intro content
    show ((listChunks 50 (rustLines content)).enum.map _).length = _
    rw [List.length_map, List.enum_length]
    exact listChunks_length 50 (by decide) (rustLines content).length _ (le_refl _)

set_option maxRecDepth 4000000 in
/-- C7 witness: the window theorem applied at the 125-line input — the
unsupported-language routing at `"unknown"`, and the third window (index 2)
of the fallback starting at line 100. -/
theorem chunk_by_lines_windows_witness :
    getChunksFromContent content125 "unknown" none = Except.ok (chunkByLines content125 50)
    ∧ ((chunkByLines content125 50).get ⟨2, by decide⟩).startLine = 2 * 50 :=
  ⟨chunk_by_lines_windows.1 content125 "unknown" none (by decide),
   (chunk_by_lines_windows.2.2.1 content125 2 (by decide)).1⟩

set_option maxRecDepth 100000 in
/-- C10: `chunk_text_simple` is not total. On 999 single-byte characters
followed by a two-byte character, the slice `&text[start..end]` at
`end = start + 1000 = 1000` lands on the continuation byte of the two-byte
character — not a character boundary — and the function panics. -/
theorem chunk_text_simple_boundary_panic :
    chunkTextSimple c10FailingInput 1000 = Except.error "byte index is not a char boundary"
    ∧ isCharBoundary c10FailingInput 1000 = false
    ∧ c10FailingInput.length = 1002 := by
  refine ⟨by decide, by decide, by decide⟩

end ZedSemantic
